import Mathlib

/-!
Verification of the propagation engine of the SPS task planner.

The definitions below are a shallow embedding of `workers.py` and the parts
of `model.py` it relies on.  Tasks of one domain are modelled as a list of
`Task` records, their index records as an association list keyed by task
identifier; the datastore operations become pure functions on a `Store`.
`api.get_task` and `api.get_user` live in a module that is not part of the
sources at hand, so they are modelled from the spec's read API
(`getNode(domain, id) -> Node | absent`, `resolveDisplayName(userId)`):
`get_task` is a lookup in the store, the user directory is a parameter
`get_user : String -> Option String` returning the display name.
Everything is within a single domain, so the domain argument is dropped.
-/

namespace SPS

/-- Kind of propagation job: bottom-up aggregation or top-down location. -/
inductive JobKind where
  | aggregateUp
  | locateDown
deriving Repr, DecidableEq

/-- One queued propagation job: the worker URL (kind), the task identifier
parameter and the `transactional` flag passed to `queue.add`. -/
structure Job where
  kind : JobKind
  task : String
  transactional : Bool
deriving Repr, DecidableEq

/-- Outcome a job delivery reports to the queue: a 2xx response (`success`,
including the permanent no-op) or a non-2xx response (`retry`). -/
inductive Outcome where
  | success
  | retry
deriving Repr, DecidableEq

/-- One record of the `derived_assignees` JSON dictionary of a task
(model.py uses the dict keys `id`, `name`, `completed`, `all`). -/
structure AssigneeRecord where
  id : String
  name : String
  completed : Int
  all : Int
deriving Repr, DecidableEq

/-- A Python dictionary from assignee identifier to record, as an
insertion-ordered association list with unique keys. -/
abbrev AssigneeMap := List (String × AssigneeRecord)

/-- Python dictionary lookup `d.get(k)`. -/
def dictGet (m : AssigneeMap) (k : String) : Option AssigneeRecord :=
  (m.find? (fun e => e.1 == k)).map (fun e => e.2)

/-- Python dictionary assignment `d[k] = v`: overwrite in place, or append. -/
def dictSet : AssigneeMap → String → AssigneeRecord → AssigneeMap
  | [], k, v => [(k, v)]
  | e :: es, k, v => if e.1 == k then (k, v) :: es else e :: dictSet es k v

/-- The keys of the dictionary. -/
def dictKeys (m : AssigneeMap) : List String := m.map (fun e => e.1)

/-- A task entity (model.py `Task`), restricted to the properties the
propagation engine reads or writes.  `id` stands for the datastore key
name, `parent_task` and `assignee` for the stored reference keys. -/
structure Task where
  id : String
  parent_task : Option String
  assignee : Option String
  completed : Bool
  derived_completed : Bool := false
  derived_size : Int := 1
  derived_atomic_task_count : Int := 0
  derived_level : Int := 0
  derived_assignees : AssigneeMap := []
  derived_has_open_tasks : Bool := false
deriving Repr, DecidableEq

/-- model.py `Task.parent_task_identifier`. -/
def Task.parent_task_identifier (t : Task) : Option String := t.parent_task

/-- model.py `Task.assignee_identifier`. -/
def Task.assignee_identifier (t : Task) : Option String := t.assignee

/-- model.py `Task.is_completed`. -/
def Task.is_completed (t : Task) : Bool := t.derived_completed

/-- model.py `Task.atomic`. -/
def Task.atomic (t : Task) : Bool := t.derived_size == 1

/-- model.py `Task.open` (`open` is a reserved word here, hence the underscore). -/
def Task.open_ (t : Task) : Bool :=
  t.atomic && !t.is_completed && t.assignee_identifier.isNone

/-- model.py `Task.has_open_tasks`. -/
def Task.has_open_tasks (t : Task) : Bool := t.derived_has_open_tasks

/-- model.py `Task.atomic_task_count`. -/
def Task.atomic_task_count (t : Task) : Int := t.derived_atomic_task_count

/-- A task index entity (model.py `TaskIndex`).  The `level` property is a
`LengthProperty` of `hierarchy` and is therefore a function, not a field. -/
structure TaskIndex where
  hierarchy : List String := []
  assignees : List String := []
  completed : Bool := false
  atomic : Bool := false
  has_open_tasks : Bool := false
deriving Repr, DecidableEq

/-- model.py `TaskIndex.level`, an `aetycoon.LengthProperty` of `hierarchy`. -/
def TaskIndex.level (i : TaskIndex) : Nat := i.hierarchy.length

/-- The datastore contents of one domain: its task entities and the
`TaskIndex` entities, keyed by the identifier of the task they index. -/
structure Store where
  tasks : List Task
  indexes : List (String × TaskIndex)
deriving Repr, DecidableEq

/-- Modelled from the spec: `getNode(domain, id) -> Node | absent`
(the body of `api.get_task` is not among the sources; the spec's read API
describes it as a key lookup returning the node or absence). -/
def get_task (s : Store) (task_identifier : String) : Option Task :=
  s.tasks.find? (fun t => t.id == task_identifier)

/-- Replace the first entity with the same key, or append (`db.Model.put`). -/
def putTaskList : List Task → Task → List Task
  | [], t => [t]
  | x :: xs, t => if x.id == t.id then t :: xs else x :: putTaskList xs t

/-- `task.put()` on the store. -/
def put_task (s : Store) (t : Task) : Store :=
  { s with tasks := putTaskList s.tasks t }

/-- `TaskIndex.get_by_key_name(task_identifier, parent=task)`. -/
def get_index (s : Store) (task_identifier : String) : Option TaskIndex :=
  (s.indexes.find? (fun e => e.1 == task_identifier)).map (fun e => e.2)

/-- Replace the first index with the same key name, or append. -/
def putIndexList : List (String × TaskIndex) → String → TaskIndex →
    List (String × TaskIndex)
  | [], k, i => [(k, i)]
  | e :: es, k, i => if e.1 == k then (k, i) :: es else e :: putIndexList es k i

/-- `index.put()` on the store. -/
def put_index (s : Store) (task_identifier : String) (i : TaskIndex) : Store :=
  { s with indexes := putIndexList s.indexes task_identifier i }

/-- The strongly consistent ancestor query for the direct subtasks:
`Task.all().ancestor(domain_key).filter(parent_task = task.key())`. -/
def subtasks (s : Store) (task_identifier : String) : List Task :=
  s.tasks.filter (fun t => t.parent_task == some task_identifier)

/-- One iteration of the composite-task loop of `UpdateTaskCompletion.post`
(workers.py lines 109-118): make sure the key is present, then add the
subtask record's `completed` and `all` counts onto it. -/
def addAssigneeRecord (assignees : AssigneeMap) (e : String × AssigneeRecord) :
    AssigneeMap :=
  let assignees :=
    match dictGet assignees e.1 with
    | none => dictSet assignees e.1 ⟨e.1, e.2.name, 0, 0⟩
    | some _ => assignees
  match dictGet assignees e.1 with
  | some cur =>
      dictSet assignees e.1
        { cur with completed := cur.completed + e.2.completed,
                   all := cur.all + e.2.all }
  | none => assignees

/-- The `assignees` dictionary a composite task derives from its subtasks
(workers.py lines 106-118). -/
def aggAssignees (subs : List Task) : AssigneeMap :=
  subs.foldl (fun acc t => t.derived_assignees.foldl addAssigneeRecord acc) []

/-- Result of one job delivery: the store after the handler ran, the jobs it
enqueued, and the outcome it reports to the queue. -/
structure StepResult where
  store : Store
  jobs : List Job
  outcome : Outcome
deriving Repr, DecidableEq

namespace UpdateTaskCompletion

/-- The atomic-task branch of `UpdateTaskCompletion.post` (workers.py lines
75-96), on the production path (`DEV_SERVER` false): the cached display name
is the resolved user name, or the sentinel when resolution fails. -/
def leafCompute (get_user : String → Option String) (task : Task)
    (index : TaskIndex) : Task × TaskIndex :=
  let task := { task with derived_completed := task.completed,
                          derived_size := 1,
                          derived_atomic_task_count := 1 }
  let task := { task with derived_has_open_tasks := task.open_ }
  match task.assignee_identifier with
  | some a =>
      let name := (get_user a).getD "<Missing>"
      let record : AssigneeRecord :=
        ⟨a, name, (if task.is_completed then 1 else 0), 1⟩
      ({ task with derived_assignees := dictSet task.derived_assignees a record },
       { index with assignees := [a] })
  | none => (task, index)

/-- The composite-task branch of `UpdateTaskCompletion.post` (workers.py
lines 97-120). -/
def compositeCompute (task : Task) (index : TaskIndex) (subs : List Task) :
    Task × TaskIndex :=
  let assignees := aggAssignees subs
  ({ task with
       derived_completed := subs.all (fun t => t.is_completed),
       derived_size := 1 + (subs.map (fun t => t.derived_size)).sum,
       derived_atomic_task_count := (subs.map (fun t => t.atomic_task_count)).sum,
       derived_has_open_tasks := subs.any (fun t => t.has_open_tasks),
       derived_assignees := assignees },
   { index with assignees := dictKeys assignees })

/-- The recomputation of a task and its index (workers.py lines 75-125,
without the datastore writes): branch on the subtasks, then mirror the
`completed`, `has_open_tasks` and `atomic` flags onto the index. -/
def aggCompute (get_user : String → Option String) (task : Task)
    (index : TaskIndex) (subs : List Task) : Task × TaskIndex :=
  let ti :=
    if subs.isEmpty then leafCompute get_user task index
    else compositeCompute task index subs
  (ti.1, { ti.2 with completed := ti.1.is_completed,
                     has_open_tasks := ti.1.has_open_tasks,
                     atomic := ti.1.atomic })

/-- The transaction body `txn` of `UpdateTaskCompletion.post` (workers.py
lines 60-130): load the task (absent task is a logged permanent no-op),
recompute, write both entities, and enqueue the parent's bottom-up job as a
transactional job when the task has a parent. -/
def post (get_user : String → Option String) (s : Store)
    (task_identifier : String) : StepResult :=
  match get_task s task_identifier with
  | none => ⟨s, [], Outcome.success⟩
  | some task =>
      let index := (get_index s task_identifier).getD ({} : TaskIndex)
      let subs := subtasks s task_identifier
      let ti := aggCompute get_user task index subs
      let s1 := put_index (put_task s ti.1) task_identifier ti.2
      match ti.1.parent_task_identifier with
      | some p => ⟨s1, [⟨JobKind.aggregateUp, p, true⟩], Outcome.success⟩
      | none => ⟨s1, [], Outcome.success⟩

/-- `UpdateTaskCompletion.enqueue` (workers.py lines 140-167): raise
`ValueError` when asked for a transactional add outside a transaction,
otherwise add the job to the queue. -/
def enqueue (task_identifier : String) (transactional : Bool)
    (in_transaction : Bool) (q : List Job) : Except String (List Job) :=
  if transactional && !in_transaction then
    Except.error "Adding a transactional worker requires a transaction"
  else
    Except.ok (q ++ [⟨JobKind.aggregateUp, task_identifier, transactional⟩])

end UpdateTaskCompletion

namespace UpdateTaskHierarchy

/-- The tail of `UpdateTaskHierarchy.post` shared by the root and non-root
branches (workers.py lines 210-234): store the hierarchy on the index and
the level on the task, then - outside the transaction - enqueue a locator
job for every direct subtask. -/
def finish (s : Store) (task : Task) (task_identifier : String)
    (hierarchy : List String) (level : Int) : StepResult :=
  let index := (get_index s task_identifier).getD ({} : TaskIndex)
  let s1 := put_index s task_identifier { index with hierarchy := hierarchy }
  let task1 := { task with derived_level := level }
  let s2 := put_task s1 task1
  let jobs := (subtasks s2 task_identifier).map
    (fun c => ⟨JobKind.locateDown, c.id, false⟩)
  ⟨s2, jobs, Outcome.success⟩

/-- `UpdateTaskHierarchy.post` (workers.py lines 182-234).  An absent task
is a logged permanent no-op.  When the parent task exists but its index is
missing, the delivery fails with no writes and is retried (the handler
answers with a non-2xx status; the logging call on that path even names an
undefined variable, which aborts the transaction with the same retry
outcome either way). -/
def post (s : Store) (task_identifier : String) : StepResult :=
  match get_task s task_identifier with
  | none => ⟨s, [], Outcome.success⟩
  | some task =>
      let parent_task :=
        match task.parent_task_identifier with
        | some pid => get_task s pid
        | none => none
      match parent_task with
      | some pt =>
          match get_index s pt.id with
          | none => ⟨s, [], Outcome.retry⟩
          | some parent_index =>
              finish s task task_identifier
                (parent_index.hierarchy ++ [pt.id]) (pt.derived_level + 1)
      | none => finish s task task_identifier [] 0

/-- `UpdateTaskHierarchy.enqueue` (workers.py lines 236-263), same contract
as the aggregator's enqueue. -/
def enqueue (task_identifier : String) (transactional : Bool)
    (in_transaction : Bool) (q : List Job) : Except String (List Job) :=
  if transactional && !in_transaction then
    Except.error "Adding a transactional worker requires a transaction"
  else
    Except.ok (q ++ [⟨JobKind.locateDown, task_identifier, transactional⟩])

end UpdateTaskHierarchy

end SPS

namespace SPS

/-! ### Derived notions used to state the claims -/

/-- The `completed` count stored for assignee `k`, 0 when `k` is absent. -/
def completedAt (m : AssigneeMap) (k : String) : Int :=
  ((dictGet m k).map (fun r => r.completed)).getD 0

/-- The `all` (total) count stored for assignee `k`, 0 when `k` is absent. -/
def allAt (m : AssigneeMap) (k : String) : Int :=
  ((dictGet m k).map (fun r => r.all)).getD 0

/-- The contribution of the raw entry list of one subtask dictionary to the
`completed` count of key `k`. -/
def keyedCompleted (m : AssigneeMap) (k : String) : Int :=
  (m.map (fun e => if e.1 = k then e.2.completed else 0)).sum

/-- The contribution of the raw entry list of one subtask dictionary to the
`all` count of key `k`. -/
def keyedAll (m : AssigneeMap) (k : String) : Int :=
  (m.map (fun e => if e.1 = k then e.2.all else 0)).sum

/-- The tree skeleton visible at one identifier: the stored parent reference
and level of the task found there.  Propagation steps never change it. -/
def taskSkel (s : Store) (tid : String) : Option (Option String × Int) :=
  (get_task s tid).map (fun t => (t.parent_task, t.derived_level))

/-- One task's stored depth information is consistent: the level is
non-negative, a root is stored at level 0, and a child is stored one level
below an existing parent. -/
def depthOKb (s : Store) (t : Task) : Bool :=
  decide (0 ≤ t.derived_level) &&
    match t.parent_task with
    | none => t.derived_level == 0
    | some p =>
        match get_task s p with
        | none => false
        | some pt => t.derived_level == pt.derived_level + 1

/-- The forest invariant of the claim about chain termination: every stored
task has consistent depth information, which in particular rules out cycles
among the stored parent references. -/
def WellFormedDepths (s : Store) : Prop :=
  ∀ t ∈ s.tasks, depthOKb s t = true

instance (s : Store) : Decidable (WellFormedDepths s) :=
  List.decidableBAll (fun t => depthOKb s t = true) s.tasks

/-- Deliver a chain of bottom-up jobs: run the aggregator on the given task,
follow the job it enqueued, and so on until no job is enqueued or the fuel
runs out.  Returns the identifiers processed in order, the final store, and
the jobs still pending. -/
def aggChainRun (get_user : String → Option String) :
    Nat → Store → String → List String × Store × List Job
  | 0, s, tid => ([], s, [⟨JobKind.aggregateUp, tid, true⟩])
  | n + 1, s, tid =>
      let r := UpdateTaskCompletion.post get_user s tid
      match r.jobs with
      | [] => ([tid], r.store, [])
      | j :: _ =>
          let rest := aggChainRun get_user n r.store j.task
          (tid :: rest.1, rest.2.1, rest.2.2)

/-! ### Concrete stores used to exercise the theorems -/

/-- A freshly created unassigned incomplete leaf under parent `p1`. -/
def wLeaf : Task := { id := "t1", parent_task := some "p1", assignee := none, completed := false }

/-- A root task. -/
def wRoot : Task := { id := "p1", parent_task := none, assignee := none, completed := false }

/-- A completed leaf assigned to `alice`, already aggregated. -/
def wDone : Task :=
  { id := "t2", parent_task := some "p1", assignee := some "alice", completed := true,
    derived_completed := true, derived_size := 1, derived_atomic_task_count := 1,
    derived_level := 1,
    derived_assignees := [("alice", ⟨"alice", "Alice", 1, 1⟩)] }

/-- An open unassigned leaf, already aggregated. -/
def wOpen : Task :=
  { id := "t3", parent_task := some "p1", assignee := none, completed := false,
    derived_completed := false, derived_size := 1, derived_atomic_task_count := 1,
    derived_level := 1, derived_has_open_tasks := true }

/-- A leaf that is no longer assigned but still carries a stale
`derived_assignees` entry from an earlier aggregation. -/
def wStale : Task :=
  { id := "t4", parent_task := none, assignee := none, completed := false,
    derived_assignees := [("bob", ⟨"bob", "Bob", 0, 1⟩)] }

/-- A store with a fresh leaf under a root. -/
def wStore1 : Store := { tasks := [wRoot, wLeaf], indexes := [] }

/-- A store where the root has two aggregated children. -/
def wStore2 : Store := { tasks := [wRoot, wDone, wOpen], indexes := [] }

/-- A store containing only the stale-entry leaf. -/
def wStore4 : Store := { tasks := [wStale], indexes := [] }

/-- A store with a root whose index record exists, plus the fresh leaf. -/
def wStore5 : Store :=
  { tasks := [wRoot, wLeaf], indexes := [("p1", { hierarchy := [] })] }

/-- A depth-consistent two-node chain: `c1` at level 1 under root `r1`. -/
def wStore8 : Store :=
  { tasks := [{ id := "r1", parent_task := none, assignee := none, completed := false },
              { id := "c1", parent_task := some "r1", assignee := none,
                completed := false, derived_level := 1 }],
    indexes := [] }

/-! ### Lemmas about the dictionary and the store operations -/

theorem dictGet_cons (e : String × AssigneeRecord) (es : AssigneeMap) (k : String) :
    dictGet (e :: es) k = if e.1 == k then some e.2 else dictGet es k := by
  by_cases h : e.1 = k
  · have hb : (e.1 == k) = true := beq_iff_eq.mpr h
    simp [dictGet, List.find?, hb]
  · have hb : (e.1 == k) = false := beq_eq_false_iff_ne.mpr h
    simp [dictGet, List.find?, hb]

theorem dictSet_cons (e : String × AssigneeRecord) (es : AssigneeMap)
    (k : String) (v : AssigneeRecord) :
    dictSet (e :: es) k v = if e.1 == k then (k, v) :: es else e :: dictSet es k v :=
  rfl

theorem dictGet_dictSet_self (m : AssigneeMap) (k : String) (v : AssigneeRecord) :
    dictGet (dictSet m k v) k = some v := by
  induction m with
  | nil => simp [dictGet, dictSet, List.find?]
  | cons e es ih =>
      rw [dictSet_cons]
      by_cases h : e.1 = k
      · have hb : (e.1 == k) = true := beq_iff_eq.mpr h
        rw [hb, if_pos rfl, dictGet_cons]
        simp
      · have hb : (e.1 == k) = false := beq_eq_false_iff_ne.mpr h
        rw [hb]
        simpa [dictGet_cons, hb] using ih

theorem dictGet_dictSet_ne (m : AssigneeMap) (k k' : String) (v : AssigneeRecord)
    (h : k' ≠ k) : dictGet (dictSet m k v) k' = dictGet m k' := by
  have hkk : (k == k') = false := beq_eq_false_iff_ne.mpr (Ne.symm h)
  induction m with
  | nil => simp [dictGet, dictSet, List.find?, hkk]
  | cons e es ih =>
      rw [dictSet_cons]
      by_cases he : e.1 = k
      · have hb : (e.1 == k) = true := beq_iff_eq.mpr he
        have hek' : (e.1 == k') = false := by rw [he]; exact hkk
        rw [hb, if_pos rfl, dictGet_cons, dictGet_cons, hkk, hek']
        simp
      · have hb : (e.1 == k) = false := beq_eq_false_iff_ne.mpr he
        rw [hb, if_neg Bool.false_ne_true, dictGet_cons, dictGet_cons, ih]

theorem dictSet_dictSet_self (m : AssigneeMap) (k : String) (v w : AssigneeRecord) :
    dictSet (dictSet m k v) k w = dictSet m k w := by
  induction m with
  | nil => simp [dictSet]
  | cons e es ih =>
      rw [dictSet_cons]
      by_cases h : e.1 = k
      · have hb : (e.1 == k) = true := beq_iff_eq.mpr h
        rw [hb, if_pos rfl, dictSet_cons, dictSet_cons]
        simp [hb]
      · have hb : (e.1 == k) = false := beq_eq_false_iff_ne.mpr h
        rw [hb, if_neg (by simp), dictSet_cons, dictSet_cons, hb, ih]
        simp [hb]

theorem find?_task_cons (x : Task) (xs : List Task) (tid : String) :
    (x :: xs).find? (fun u => u.id == tid) =
      if x.id == tid then some x else xs.find? (fun u => u.id == tid) := by
  by_cases h : x.id = tid
  · have hb : (x.id == tid) = true := beq_iff_eq.mpr h
    simp [List.find?, hb]
  · have hb : (x.id == tid) = false := beq_eq_false_iff_ne.mpr h
    simp [List.find?, hb]

theorem get_task_eq_id {s : Store} {tid : String} {t : Task}
    (h : get_task s tid = some t) : t.id = tid := by
  have := List.find?_some h
  simpa using this

theorem get_task_mem {s : Store} {tid : String} {t : Task}
    (h : get_task s tid = some t) : t ∈ s.tasks :=
  List.mem_of_find?_eq_some h

theorem putTaskList_cons (x : Task) (xs : List Task) (t : Task) :
    putTaskList (x :: xs) t =
      if x.id == t.id then t :: xs else x :: putTaskList xs t :=
  rfl

theorem find?_putTaskList_self (l : List Task) (t : Task) :
    (putTaskList l t).find? (fun u => u.id == t.id) = some t := by
  induction l with
  | nil => simp [putTaskList, List.find?]
  | cons x xs ih =>
      rw [putTaskList_cons]
      by_cases hx : x.id = t.id
      · have hb : (x.id == t.id) = true := beq_iff_eq.mpr hx
        rw [hb, if_pos rfl, find?_task_cons]
        simp
      · have hb : (x.id == t.id) = false := beq_eq_false_iff_ne.mpr hx
        rw [hb, if_neg (by simp), find?_task_cons, hb, if_neg (by simp), ih]

theorem get_task_put_task_self (s : Store) (t : Task) :
    get_task (put_task s t) t.id = some t :=
  find?_putTaskList_self s.tasks t

theorem find?_putTaskList_ne (l : List Task) (t : Task) (tid : String)
    (h : tid ≠ t.id) :
    (putTaskList l t).find? (fun u => u.id == tid) =
      l.find? (fun u => u.id == tid) := by
  have htid : (t.id == tid) = false := beq_eq_false_iff_ne.mpr (Ne.symm h)
  induction l with
  | nil => simp [putTaskList, List.find?, htid]
  | cons x xs ih =>
      rw [putTaskList_cons]
      by_cases hx : x.id = t.id
      · have hb : (x.id == t.id) = true := beq_iff_eq.mpr hx
        have hxid : (x.id == tid) = false := by rw [hx]; exact htid
        rw [hb, if_pos rfl, find?_task_cons, find?_task_cons, htid, hxid]
        simp
      · have hb : (x.id == t.id) = false := beq_eq_false_iff_ne.mpr hx
        rw [hb, if_neg (by simp), find?_task_cons, find?_task_cons, ih]

theorem get_task_put_task_ne (s : Store) (t : Task) (tid : String)
    (h : tid ≠ t.id) : get_task (put_task s t) tid = get_task s tid :=
  find?_putTaskList_ne s.tasks t tid h

theorem get_task_put_index (s : Store) (k : String) (i : TaskIndex)
    (tid : String) : get_task (put_index s k i) tid = get_task s tid := rfl

theorem get_index_put_task (s : Store) (t : Task) (k : String) :
    get_index (put_task s t) k = get_index s k := rfl

theorem subtasks_put_index (s : Store) (k : String) (i : TaskIndex)
    (tid : String) : subtasks (put_index s k i) tid = subtasks s tid := rfl

theorem find?_index_cons (e : String × TaskIndex) (es : List (String × TaskIndex))
    (k : String) :
    (e :: es).find? (fun x => x.1 == k) =
      if e.1 == k then some e else es.find? (fun x => x.1 == k) := by
  by_cases h : e.1 = k
  · have hb : (e.1 == k) = true := beq_iff_eq.mpr h
    simp [List.find?, hb]
  · have hb : (e.1 == k) = false := beq_eq_false_iff_ne.mpr h
    simp [List.find?, hb]

theorem putIndexList_cons (e : String × TaskIndex) (es : List (String × TaskIndex))
    (k : String) (i : TaskIndex) :
    putIndexList (e :: es) k i =
      if e.1 == k then (k, i) :: es else e :: putIndexList es k i :=
  rfl

theorem find?_putIndexList_self (l : List (String × TaskIndex)) (k : String)
    (i : TaskIndex) :
    (putIndexList l k i).find? (fun e => e.1 == k) = some (k, i) := by
  induction l with
  | nil => simp [putIndexList, List.find?]
  | cons e es ih =>
      rw [putIndexList_cons]
      by_cases he : e.1 = k
      · have hb : (e.1 == k) = true := beq_iff_eq.mpr he
        rw [hb, if_pos rfl, find?_index_cons]
        simp
      · have hb : (e.1 == k) = false := beq_eq_false_iff_ne.mpr he
        rw [hb, if_neg (by simp), find?_index_cons, hb, if_neg (by simp), ih]

theorem get_index_put_index_self (s : Store) (k : String) (i : TaskIndex) :
    get_index (put_index s k i) k = some i := by
  simp [get_index, put_index, find?_putIndexList_self]

theorem find?_putIndexList_ne (l : List (String × TaskIndex)) (k : String)
    (i : TaskIndex) (k' : String) (h : k' ≠ k) :
    (putIndexList l k i).find? (fun e => e.1 == k') =
      l.find? (fun e => e.1 == k') := by
  have hkk : (k == k') = false := beq_eq_false_iff_ne.mpr (Ne.symm h)
  induction l with
  | nil => simp [putIndexList, List.find?, hkk]
  | cons e es ih =>
      rw [putIndexList_cons]
      by_cases he : e.1 = k
      · have hb : (e.1 == k) = true := beq_iff_eq.mpr he
        have hek : (e.1 == k') = false := by rw [he]; exact hkk
        rw [hb, if_pos rfl, find?_index_cons, find?_index_cons, hkk, hek]
        simp
      · have hb : (e.1 == k) = false := beq_eq_false_iff_ne.mpr he
        rw [hb, if_neg (by simp), find?_index_cons, find?_index_cons, ih]

theorem get_index_put_index_ne (s : Store) (k : String) (i : TaskIndex)
    (k' : String) (h : k' ≠ k) :
    get_index (put_index s k i) k' = get_index s k' := by
  simp [get_index, put_index, find?_putIndexList_ne _ _ _ _ h]

end SPS

namespace SPS

/-! ### Shape of one aggregator delivery -/

theorem aggCompute_fst_id (g : String → Option String) (t : Task) (i : TaskIndex)
    (subs : List Task) : (UpdateTaskCompletion.aggCompute g t i subs).1.id = t.id := by
  unfold UpdateTaskCompletion.aggCompute UpdateTaskCompletion.leafCompute
    UpdateTaskCompletion.compositeCompute
  by_cases hs : subs.isEmpty <;>
    cases ha : t.assignee <;>
      simp [hs, ha, Task.assignee_identifier]

theorem aggCompute_fst_parent (g : String → Option String) (t : Task) (i : TaskIndex)
    (subs : List Task) :
    (UpdateTaskCompletion.aggCompute g t i subs).1.parent_task = t.parent_task := by
  unfold UpdateTaskCompletion.aggCompute UpdateTaskCompletion.leafCompute
    UpdateTaskCompletion.compositeCompute
  by_cases hs : subs.isEmpty <;>
    cases ha : t.assignee <;>
      simp [hs, ha, Task.assignee_identifier]

theorem aggCompute_fst_level (g : String → Option String) (t : Task) (i : TaskIndex)
    (subs : List Task) :
    (UpdateTaskCompletion.aggCompute g t i subs).1.derived_level = t.derived_level := by
  unfold UpdateTaskCompletion.aggCompute UpdateTaskCompletion.leafCompute
    UpdateTaskCompletion.compositeCompute
  by_cases hs : subs.isEmpty <;>
    cases ha : t.assignee <;>
      simp [hs, ha, Task.assignee_identifier]

theorem agg_post_some (g : String → Option String) (s : Store) (tid : String)
    (task : Task) (h : get_task s tid = some task) :
    UpdateTaskCompletion.post g s tid =
      (let ti := UpdateTaskCompletion.aggCompute g task
         ((get_index s tid).getD ({} : TaskIndex)) (subtasks s tid)
       { store := put_index (put_task s ti.1) tid ti.2,
         jobs := match task.parent_task with
           | some p => [⟨JobKind.aggregateUp, p, true⟩]
           | none => [],
         outcome := Outcome.success }) := by
  unfold UpdateTaskCompletion.post
  rw [h]
  have hp := aggCompute_fst_parent g task
    ((get_index s tid).getD ({} : TaskIndex)) (subtasks s tid)
  simp only [Task.parent_task_identifier, hp]
  cases task.parent_task <;> rfl

theorem agg_post_absent (g : String → Option String) (s : Store) (tid : String)
    (h : get_task s tid = none) :
    UpdateTaskCompletion.post g s tid = ⟨s, [], Outcome.success⟩ := by
  unfold UpdateTaskCompletion.post
  rw [h]

theorem loc_post_absent (s : Store) (tid : String)
    (h : get_task s tid = none) :
    UpdateTaskHierarchy.post s tid = ⟨s, [], Outcome.success⟩ := by
  unfold UpdateTaskHierarchy.post
  rw [h]

end SPS

namespace SPS

/-! ### The atomic-task branch, spelled out -/

theorem leafCompute_fst (g : String → Option String) (t : Task) (i : TaskIndex) :
    (UpdateTaskCompletion.leafCompute g t i).1 =
      (let t1 : Task := { t with derived_completed := t.completed, derived_size := 1,
                                 derived_atomic_task_count := 1,
                                 derived_has_open_tasks := !t.completed && t.assignee.isNone }
       match t.assignee with
       | some a =>
           let r : AssigneeRecord :=
             ⟨a, (g a).getD "<Missing>", (if t.completed then 1 else 0), 1⟩
           { t1 with derived_assignees := dictSet t.derived_assignees a r }
       | none => t1) := by
  unfold UpdateTaskCompletion.leafCompute
  cases ha : t.assignee <;>
    simp [Task.open_, Task.atomic, Task.is_completed, Task.assignee_identifier, ha]

theorem leafCompute_snd (g : String → Option String) (t : Task) (i : TaskIndex) :
    (UpdateTaskCompletion.leafCompute g t i).2 =
      (match t.assignee with
       | some a => { i with assignees := [a] }
       | none => i) := by
  unfold UpdateTaskCompletion.leafCompute
  cases ha : t.assignee <;> simp [Task.assignee_identifier, ha]

theorem aggCompute_fst_of_nil (g : String → Option String) (t : Task) (i : TaskIndex) :
    (UpdateTaskCompletion.aggCompute g t i []).1 =
      (UpdateTaskCompletion.leafCompute g t i).1 := rfl

end SPS

namespace SPS

theorem agg_post_store (g : String → Option String) (s : Store) (tid : String)
    (task : Task) (h : get_task s tid = some task) :
    (UpdateTaskCompletion.post g s tid).store =
      put_index
        (put_task s (UpdateTaskCompletion.aggCompute g task
          ((get_index s tid).getD ({} : TaskIndex)) (subtasks s tid)).1)
        tid
        (UpdateTaskCompletion.aggCompute g task
          ((get_index s tid).getD ({} : TaskIndex)) (subtasks s tid)).2 := by
  rw [agg_post_some g s tid task h]

theorem agg_post_jobs (g : String → Option String) (s : Store) (tid : String)
    (task : Task) (h : get_task s tid = some task) :
    (UpdateTaskCompletion.post g s tid).jobs =
      (match task.parent_task with
       | some p => [⟨JobKind.aggregateUp, p, true⟩]
       | none => []) := by
  rw [agg_post_some g s tid task h]

theorem agg_post_outcome (g : String → Option String) (s : Store) (tid : String) :
    (UpdateTaskCompletion.post g s tid).outcome = Outcome.success := by
  cases h : get_task s tid with
  | none => rw [agg_post_absent g s tid h]
  | some task => rw [agg_post_some g s tid task h]

/-- Claim C2: a node with zero direct children is evaluated as a leaf: the
stored derived completion is the node's own user-set flag, the derived size
and atomic count are 1, and the derived has-open-work flag is
"not completed and unassigned". -/
theorem claim_leaf_base (g : String → Option String) (s : Store) (tid : String)
    (task : Task) (h : get_task s tid = some task)
    (hsub : subtasks s tid = []) :
    ∃ t', get_task (UpdateTaskCompletion.post g s tid).store tid = some t' ∧
      t'.derived_completed = task.completed ∧
      t'.derived_size = 1 ∧
      t'.derived_atomic_task_count = 1 ∧
      t'.derived_has_open_tasks = (!task.completed && task.assignee.isNone) := by
  have hid : task.id = tid := get_task_eq_id h
  rw [agg_post_store g s tid task h, hsub]
  set A := UpdateTaskCompletion.aggCompute g task
    ((get_index s tid).getD ({} : TaskIndex)) [] with hA
  have hAid : A.1.id = tid := by rw [hA, aggCompute_fst_id]; exact hid
  refine ⟨A.1, ?_, ?_, ?_, ?_, ?_⟩
  · rw [get_task_put_index, ← hAid]
    exact get_task_put_task_self s A.1
  all_goals
    rw [hA, aggCompute_fst_of_nil, leafCompute_fst]
    cases ha : task.assignee <;> simp [ha]

/-- Witness for C2 at a freshly created, unassigned, incomplete leaf: the
general theorem applies and yields size 1, atomic count 1, completed false
and has-open-work true. -/
theorem claim_leaf_base_witness :
    get_task wStore1 "t1" = some wLeaf ∧ subtasks wStore1 "t1" = [] ∧
    (∃ t', get_task (UpdateTaskCompletion.post (fun _ => none) wStore1 "t1").store "t1" = some t' ∧
      t'.derived_completed = wLeaf.completed ∧
      t'.derived_size = 1 ∧
      t'.derived_atomic_task_count = 1 ∧
      t'.derived_has_open_tasks = (!wLeaf.completed && wLeaf.assignee.isNone)) :=
  ⟨by decide, by decide,
   claim_leaf_base (fun _ => none) wStore1 "t1" wLeaf (by decide) (by decide)⟩

/-- Claim C7: a job (of either kind) whose target task is absent completes
as a permanent no-op: the store is untouched, no job is enqueued, and the
delivery reports success to the queue. -/
theorem claim_stale_reference (g : String → Option String) (s : Store)
    (tid : String) (h : get_task s tid = none) :
    UpdateTaskCompletion.post g s tid = ⟨s, [], Outcome.success⟩ ∧
    UpdateTaskHierarchy.post s tid = ⟨s, [], Outcome.success⟩ :=
  ⟨agg_post_absent g s tid h, loc_post_absent s tid h⟩

/-- Witness for C7 on an empty store. -/
theorem claim_stale_reference_witness :
    get_task ⟨[], []⟩ "x" = none ∧
    (UpdateTaskCompletion.post (fun _ => none) ⟨[], []⟩ "x" =
        ⟨⟨[], []⟩, [], Outcome.success⟩ ∧
      UpdateTaskHierarchy.post ⟨[], []⟩ "x" = ⟨⟨[], []⟩, [], Outcome.success⟩) :=
  ⟨by decide, claim_stale_reference (fun _ => none) ⟨[], []⟩ "x" (by decide)⟩

/-- Claim C9: for both workers, asking for a transactional enqueue outside a
transaction raises the ValueError without touching the queue; a
non-transactional enqueue, or a transactional one inside a transaction,
succeeds and appends the job. -/
theorem claim_enqueue_transactional (tid : String) (q : List Job) :
    (UpdateTaskCompletion.enqueue tid true false q =
       Except.error "Adding a transactional worker requires a transaction") ∧
    (UpdateTaskHierarchy.enqueue tid true false q =
       Except.error "Adding a transactional worker requires a transaction") ∧
    (∀ b, UpdateTaskCompletion.enqueue tid false b q =
       Except.ok (q ++ [⟨JobKind.aggregateUp, tid, false⟩])) ∧
    (∀ b, UpdateTaskHierarchy.enqueue tid false b q =
       Except.ok (q ++ [⟨JobKind.locateDown, tid, false⟩])) ∧
    (UpdateTaskCompletion.enqueue tid true true q =
       Except.ok (q ++ [⟨JobKind.aggregateUp, tid, true⟩])) ∧
    (UpdateTaskHierarchy.enqueue tid true true q =
       Except.ok (q ++ [⟨JobKind.locateDown, tid, true⟩])) := by
  simp [UpdateTaskCompletion.enqueue, UpdateTaskHierarchy.enqueue]

/-- Claim C6: a locator job on a node whose parent task exists but whose
parent index record is absent fails as a retryable delivery: the outcome is
retry (never success, never a permanent skip), nothing is stored and no job
is enqueued. -/
theorem claim_missing_parent_index (s : Store) (tid : String) (task pt : Task)
    (pid : String) (h : get_task s tid = some task)
    (hpar : task.parent_task = some pid) (hpt : get_task s pid = some pt)
    (hidx : get_index s pid = none) :
    UpdateTaskHierarchy.post s tid = ⟨s, [], Outcome.retry⟩ := by
  have hptid : pt.id = pid := get_task_eq_id hpt
  unfold UpdateTaskHierarchy.post
  rw [h]
  simp only [Task.parent_task_identifier, hpar, hpt, hptid, hidx]

/-- Witness for C6: the fresh leaf under a root whose index does not exist. -/
theorem claim_missing_parent_index_witness :
    get_task wStore1 "t1" = some wLeaf ∧ wLeaf.parent_task = some "p1" ∧
    get_task wStore1 "p1" = some wRoot ∧ get_index wStore1 "p1" = none ∧
    UpdateTaskHierarchy.post wStore1 "t1" = ⟨wStore1, [], Outcome.retry⟩ :=
  ⟨by decide, by decide, by decide, by decide,
   claim_missing_parent_index wStore1 "t1" wLeaf wRoot "p1"
     (by decide) (by decide) (by decide) (by decide)⟩

end SPS

namespace SPS

/-- Claim C10: on a childless node the aggregator never removes a key from
the stored `derived_assignees` dictionary: every key that was present is
still present, and every key other than the current assignee keeps exactly
its old record. -/
theorem claim_leaf_assignee_frame (g : String → Option String) (s : Store)
    (tid : String) (task : Task) (h : get_task s tid = some task)
    (hsub : subtasks s tid = []) :
    ∃ t', get_task (UpdateTaskCompletion.post g s tid).store tid = some t' ∧
      (∀ k, (dictGet task.derived_assignees k).isSome →
        (dictGet t'.derived_assignees k).isSome) ∧
      (∀ k, task.assignee ≠ some k →
        dictGet t'.derived_assignees k = dictGet task.derived_assignees k) := by
  have hid : task.id = tid := get_task_eq_id h
  rw [agg_post_store g s tid task h, hsub]
  set A := UpdateTaskCompletion.aggCompute g task
    ((get_index s tid).getD ({} : TaskIndex)) [] with hA
  have hAid : A.1.id = tid := by rw [hA, aggCompute_fst_id]; exact hid
  refine ⟨A.1, ?_, ?_, ?_⟩
  · rw [get_task_put_index, ← hAid]
    exact get_task_put_task_self s A.1
  · rw [hA, aggCompute_fst_of_nil, leafCompute_fst]
    cases ha : task.assignee with
    | none => simp
    | some a =>
        intro k hk
        by_cases hka : a = k
        · subst hka
          simp [dictGet_dictSet_self]
        · simpa [dictGet_dictSet_ne _ _ _ _ (Ne.symm hka)] using hk
  · rw [hA, aggCompute_fst_of_nil, leafCompute_fst]
    cases ha : task.assignee with
    | none => simp
    | some a =>
        intro k hk
        have hka : a ≠ k := fun hh => hk (by rw [hh])
        simp [dictGet_dictSet_ne _ _ _ _ (Ne.symm hka)]

/-- Witness for C10 on the stale-entry leaf. -/
theorem claim_leaf_assignee_frame_witness :
    get_task wStore4 "t4" = some wStale ∧ subtasks wStore4 "t4" = [] ∧
    (∃ t', get_task (UpdateTaskCompletion.post (fun _ => none) wStore4 "t4").store "t4" = some t' ∧
      (∀ k, (dictGet wStale.derived_assignees k).isSome →
        (dictGet t'.derived_assignees k).isSome) ∧
      (∀ k, wStale.assignee ≠ some k →
        dictGet t'.derived_assignees k = dictGet wStale.derived_assignees k)) :=
  ⟨by decide, by decide,
   claim_leaf_assignee_frame (fun _ => none) wStore4 "t4" wStale
     (by decide) (by decide)⟩

/-- Claim C3, evaluated at the failing input: `t4` is a childless,
unassigned task whose stored dictionary still holds a stale entry for
`bob`; after the aggregator runs, the stored dictionary is unchanged and in
particular not the empty dictionary the claim requires for an unassigned
leaf. -/
theorem claim_leaf_assignees_stale_eval :
    subtasks wStore4 "t4" = [] ∧
    (get_task wStore4 "t4").map (fun t => t.assignee) = some none ∧
    ((get_task (UpdateTaskCompletion.post (fun _ => none) wStore4 "t4").store "t4").map
        (fun t => t.derived_assignees)) = some [("bob", ⟨"bob", "Bob", 0, 1⟩)] ∧
    ((get_task (UpdateTaskCompletion.post (fun _ => none) wStore4 "t4").store "t4").map
        (fun t => t.derived_assignees)) ≠ some [] := by
  refine ⟨by decide, by decide, by decide, by decide⟩

end SPS

namespace SPS

/-! ### Summation properties of the composite assignee aggregation -/

theorem dictGet_addAssigneeRecord_present (m : AssigneeMap)
    (e : String × AssigneeRecord) :
    dictGet (addAssigneeRecord m e) e.1 =
      some { id := ((dictGet m e.1).getD ⟨e.1, e.2.name, 0, 0⟩).id,
             name := ((dictGet m e.1).getD ⟨e.1, e.2.name, 0, 0⟩).name,
             completed := ((dictGet m e.1).getD ⟨e.1, e.2.name, 0, 0⟩).completed + e.2.completed,
             all := ((dictGet m e.1).getD ⟨e.1, e.2.name, 0, 0⟩).all + e.2.all } := by
  unfold addAssigneeRecord
  cases hg : dictGet m e.1 with
  | none => simp [hg, dictGet_dictSet_self]
  | some cur => simp [hg, dictGet_dictSet_self]

theorem dictGet_addAssigneeRecord_ne (m : AssigneeMap)
    (e : String × AssigneeRecord) (k : String) (h : k ≠ e.1) :
    dictGet (addAssigneeRecord m e) k = dictGet m k := by
  unfold addAssigneeRecord
  cases hg : dictGet m e.1 with
  | none =>
      simp only [hg, dictGet_dictSet_self]
      rw [dictGet_dictSet_ne _ _ _ _ h, dictGet_dictSet_ne _ _ _ _ h]
  | some cur =>
      simp only [hg]
      rw [dictGet_dictSet_ne _ _ _ _ h]

theorem completedAt_addAssigneeRecord (m : AssigneeMap)
    (e : String × AssigneeRecord) (k : String) :
    completedAt (addAssigneeRecord m e) k =
      completedAt m k + (if e.1 = k then e.2.completed else 0) := by
  by_cases hk : e.1 = k
  · subst hk
    rw [if_pos rfl]
    unfold completedAt
    rw [dictGet_addAssigneeRecord_present]
    cases hg : dictGet m e.1 <;> simp [hg]
  · rw [if_neg hk]
    unfold completedAt
    rw [dictGet_addAssigneeRecord_ne _ _ _ (fun hh => hk hh.symm)]
    ring

theorem allAt_addAssigneeRecord (m : AssigneeMap)
    (e : String × AssigneeRecord) (k : String) :
    allAt (addAssigneeRecord m e) k =
      allAt m k + (if e.1 = k then e.2.all else 0) := by
  by_cases hk : e.1 = k
  · subst hk
    rw [if_pos rfl]
    unfold allAt
    rw [dictGet_addAssigneeRecord_present]
    cases hg : dictGet m e.1 <;> simp [hg]
  · rw [if_neg hk]
    unfold allAt
    rw [dictGet_addAssigneeRecord_ne _ _ _ (fun hh => hk hh.symm)]
    ring

theorem isSome_addAssigneeRecord (m : AssigneeMap)
    (e : String × AssigneeRecord) (k : String) :
    (dictGet (addAssigneeRecord m e) k).isSome =
      ((dictGet m k).isSome || (e.1 == k)) := by
  by_cases hk : e.1 = k
  · subst hk
    rw [dictGet_addAssigneeRecord_present]
    simp
  · rw [dictGet_addAssigneeRecord_ne _ _ _ (fun hh => hk hh.symm)]
    have : (e.1 == k) = false := beq_eq_false_iff_ne.mpr hk
    simp [this]

theorem completedAt_foldl_add (entries : AssigneeMap) (m : AssigneeMap)
    (k : String) :
    completedAt (entries.foldl addAssigneeRecord m) k =
      completedAt m k + keyedCompleted entries k := by
  induction entries generalizing m with
  | nil => simp [keyedCompleted]
  | cons e es ih =>
      rw [List.foldl_cons, ih, completedAt_addAssigneeRecord]
      simp [keyedCompleted]
      ring

theorem allAt_foldl_add (entries : AssigneeMap) (m : AssigneeMap) (k : String) :
    allAt (entries.foldl addAssigneeRecord m) k =
      allAt m k + keyedAll entries k := by
  induction entries generalizing m with
  | nil => simp [keyedAll]
  | cons e es ih =>
      rw [List.foldl_cons, ih, allAt_addAssigneeRecord]
      simp [keyedAll]
      ring

theorem isSome_foldl_add (entries : AssigneeMap) (m : AssigneeMap) (k : String) :
    (dictGet (entries.foldl addAssigneeRecord m) k).isSome =
      ((dictGet m k).isSome || entries.any (fun e => e.1 == k)) := by
  induction entries generalizing m with
  | nil => simp
  | cons e es ih =>
      rw [List.foldl_cons, ih, isSome_addAssigneeRecord]
      simp [Bool.or_assoc]

theorem keyedCompleted_of_not_mem (m : AssigneeMap) (k : String)
    (h : ¬ k ∈ dictKeys m) : keyedCompleted m k = 0 := by
  induction m with
  | nil => simp [keyedCompleted]
  | cons e es ih =>
      have h1 : ¬ e.1 = k := fun hh => h (by simp [dictKeys, hh])
      have h2 : ¬ k ∈ dictKeys es := fun hh => h (by simp [dictKeys] at hh ⊢; right; exact hh)
      simp [keyedCompleted, h1] at ih ⊢
      exact ih h2

theorem keyedAll_of_not_mem (m : AssigneeMap) (k : String)
    (h : ¬ k ∈ dictKeys m) : keyedAll m k = 0 := by
  induction m with
  | nil => simp [keyedAll]
  | cons e es ih =>
      have h1 : ¬ e.1 = k := fun hh => h (by simp [dictKeys, hh])
      have h2 : ¬ k ∈ dictKeys es := fun hh => h (by simp [dictKeys] at hh ⊢; right; exact hh)
      simp [keyedAll, h1] at ih ⊢
      exact ih h2

theorem keyedCompleted_eq_completedAt (m : AssigneeMap) (k : String)
    (h : (dictKeys m).Nodup) : keyedCompleted m k = completedAt m k := by
  induction m with
  | nil => simp [keyedCompleted, completedAt, dictGet]
  | cons e es ih =>
      have hnd : (dictKeys es).Nodup := (List.nodup_cons.mp h).2
      have hni : ¬ e.1 ∈ dictKeys es := (List.nodup_cons.mp h).1
      by_cases hk : e.1 = k
      · have hze : keyedCompleted es k = 0 := by
          rw [← hk]; exact keyedCompleted_of_not_mem es e.1 hni
        have hb : (e.1 == k) = true := beq_iff_eq.mpr hk
        simp [keyedCompleted, completedAt, dictGet_cons, hk, hb, hze]
        simp [keyedCompleted] at hze
        simpa [hk] using hze
      · have hb : (e.1 == k) = false := beq_eq_false_iff_ne.mpr hk
        simp [keyedCompleted, completedAt, dictGet_cons, hk, hb] at ih ⊢
        exact ih hnd

theorem keyedAll_eq_allAt (m : AssigneeMap) (k : String)
    (h : (dictKeys m).Nodup) : keyedAll m k = allAt m k := by
  induction m with
  | nil => simp [keyedAll, allAt, dictGet]
  | cons e es ih =>
      have hnd : (dictKeys es).Nodup := (List.nodup_cons.mp h).2
      have hni : ¬ e.1 ∈ dictKeys es := (List.nodup_cons.mp h).1
      by_cases hk : e.1 = k
      · have hze : keyedAll es k = 0 := by
          rw [← hk]; exact keyedAll_of_not_mem es e.1 hni
        have hb : (e.1 == k) = true := beq_iff_eq.mpr hk
        simp [keyedAll, allAt, dictGet_cons, hk, hb, hze]
        simp [keyedAll] at hze
        simpa [hk] using hze
      · have hb : (e.1 == k) = false := beq_eq_false_iff_ne.mpr hk
        simp [keyedAll, allAt, dictGet_cons, hk, hb] at ih ⊢
        exact ih hnd

theorem completedAt_aggAssignees (subs : List Task) (k : String)
    (h : ∀ t ∈ subs, (dictKeys t.derived_assignees).Nodup) :
    completedAt (aggAssignees subs) k =
      (subs.map (fun t => completedAt t.derived_assignees k)).sum := by
  have main : ∀ acc, completedAt
      (subs.foldl (fun acc t => t.derived_assignees.foldl addAssigneeRecord acc) acc) k =
      completedAt acc k + (subs.map (fun t => completedAt t.derived_assignees k)).sum := by
    induction subs with
    | nil => intro acc; simp
    | cons t ts ih =>
        intro acc
        have hnd := h t (by simp)
        have ihts := ih (fun u hu => h u (by simp [hu]))
        rw [List.foldl_cons, ihts, completedAt_foldl_add,
          keyedCompleted_eq_completedAt _ _ hnd]
        simp only [List.map_cons, List.sum_cons]
        ring
  have := main []
  unfold aggAssignees
  rw [this]
  simp [completedAt, dictGet]

theorem allAt_aggAssignees (subs : List Task) (k : String)
    (h : ∀ t ∈ subs, (dictKeys t.derived_assignees).Nodup) :
    allAt (aggAssignees subs) k =
      (subs.map (fun t => allAt t.derived_assignees k)).sum := by
  have main : ∀ acc, allAt
      (subs.foldl (fun acc t => t.derived_assignees.foldl addAssigneeRecord acc) acc) k =
      allAt acc k + (subs.map (fun t => allAt t.derived_assignees k)).sum := by
    induction subs with
    | nil => intro acc; simp
    | cons t ts ih =>
        intro acc
        have hnd := h t (by simp)
        have ihts := ih (fun u hu => h u (by simp [hu]))
        rw [List.foldl_cons, ihts, allAt_foldl_add, keyedAll_eq_allAt _ _ hnd]
        simp only [List.map_cons, List.sum_cons]
        ring
  have := main []
  unfold aggAssignees
  rw [this]
  simp [allAt, dictGet]

theorem isSome_aggAssignees (subs : List Task) (k : String) :
    (dictGet (aggAssignees subs) k).isSome =
      subs.any (fun t => t.derived_assignees.any (fun e => e.1 == k)) := by
  have main : ∀ acc, (dictGet
      (subs.foldl (fun acc t => t.derived_assignees.foldl addAssigneeRecord acc) acc) k).isSome =
      ((dictGet acc k).isSome ||
        subs.any (fun t => t.derived_assignees.any (fun e => e.1 == k))) := by
    induction subs with
    | nil => intro acc; simp
    | cons t ts ih =>
        intro acc
        rw [List.foldl_cons, ih, isSome_foldl_add]
        simp [Bool.or_assoc]
  have := main []
  unfold aggAssignees
  rw [this]
  simp [dictGet]

end SPS

namespace SPS

theorem dictGet_isSome_eq_any (m : AssigneeMap) (k : String) :
    (dictGet m k).isSome = m.any (fun e => e.1 == k) := by
  induction m with
  | nil => simp [dictGet]
  | cons e es ih =>
      rw [List.any_cons, ← ih]
      by_cases he : e.1 = k
      · have hb : (e.1 == k) = true := beq_iff_eq.mpr he
        simp [dictGet_cons, hb]
      · have hb : (e.1 == k) = false := beq_eq_false_iff_ne.mpr he
        simp [dictGet_cons, hb]

theorem aggCompute_fst_of_ne_nil (g : String → Option String) (t : Task)
    (i : TaskIndex) (subs : List Task) (h : subs ≠ []) :
    (UpdateTaskCompletion.aggCompute g t i subs).1 =
      (UpdateTaskCompletion.compositeCompute t i subs).1 := by
  cases subs with
  | nil => exact absurd rfl h
  | cons a as => rfl

/-- Claim C1: a node with at least one direct child stores the composite
aggregates: completion is the conjunction of the children's stored derived
completion flags, size is one plus the sum of their stored sizes, the
atomic count is the sum of their stored atomic counts, has-open-work is the
disjunction of their stored flags, and the stored assignee dictionary is
the per-key sum of the children's stored dictionaries, a key being present
exactly when it is present in some child. -/
theorem claim_composite_aggregate (g : String → Option String) (s : Store)
    (tid : String) (task : Task) (h : get_task s tid = some task)
    (hsub : subtasks s tid ≠ [])
    (hnd : ∀ c ∈ subtasks s tid, (dictKeys c.derived_assignees).Nodup) :
    ∃ t', get_task (UpdateTaskCompletion.post g s tid).store tid = some t' ∧
      t'.derived_completed = (subtasks s tid).all (fun c => c.derived_completed) ∧
      t'.derived_size = 1 + ((subtasks s tid).map (fun c => c.derived_size)).sum ∧
      t'.derived_atomic_task_count =
        ((subtasks s tid).map (fun c => c.derived_atomic_task_count)).sum ∧
      t'.derived_has_open_tasks =
        (subtasks s tid).any (fun c => c.derived_has_open_tasks) ∧
      (∀ k, completedAt t'.derived_assignees k =
        ((subtasks s tid).map (fun c => completedAt c.derived_assignees k)).sum) ∧
      (∀ k, allAt t'.derived_assignees k =
        ((subtasks s tid).map (fun c => allAt c.derived_assignees k)).sum) ∧
      (∀ k, (dictGet t'.derived_assignees k).isSome = true ↔
        ∃ c ∈ subtasks s tid, (dictGet c.derived_assignees k).isSome = true) := by
  have hid : task.id = tid := get_task_eq_id h
  rw [agg_post_store g s tid task h]
  set A := UpdateTaskCompletion.aggCompute g task
    ((get_index s tid).getD ({} : TaskIndex)) (subtasks s tid) with hA
  have hAid : A.1.id = tid := by rw [hA, aggCompute_fst_id]; exact hid
  have hfst : A.1 = (UpdateTaskCompletion.compositeCompute task
      ((get_index s tid).getD ({} : TaskIndex)) (subtasks s tid)).1 := by
    rw [hA, aggCompute_fst_of_ne_nil _ _ _ _ hsub]
  refine ⟨A.1, ?_, ?_, ?_, ?_, ?_, ?_, ?_, ?_⟩
  · rw [get_task_put_index, ← hAid]
    exact get_task_put_task_self s A.1
  · rw [hfst]
    simp [UpdateTaskCompletion.compositeCompute, Task.is_completed]
  · rw [hfst]
    simp [UpdateTaskCompletion.compositeCompute]
  · rw [hfst]
    simp [UpdateTaskCompletion.compositeCompute, Task.atomic_task_count]
  · rw [hfst]
    simp [UpdateTaskCompletion.compositeCompute, Task.has_open_tasks]
  · intro k
    rw [hfst]
    show completedAt (aggAssignees (subtasks s tid)) k = _
    exact completedAt_aggAssignees _ _ hnd
  · intro k
    rw [hfst]
    show allAt (aggAssignees (subtasks s tid)) k = _
    exact allAt_aggAssignees _ _ hnd
  · intro k
    rw [hfst]
    show (dictGet (aggAssignees (subtasks s tid)) k).isSome = true ↔ _
    rw [isSome_aggAssignees]
    rw [List.any_eq_true]
    constructor
    · rintro ⟨c, hc, hck⟩
      exact ⟨c, hc, by rw [dictGet_isSome_eq_any]; exact hck⟩
    · rintro ⟨c, hc, hck⟩
      exact ⟨c, hc, by rw [dictGet_isSome_eq_any] at hck; exact hck⟩

/-- Witness for C1: a root with two aggregated children, one completed leaf
assigned to alice and one open unassigned leaf. -/
theorem claim_composite_aggregate_witness :
    get_task wStore2 "p1" = some wRoot ∧ subtasks wStore2 "p1" ≠ [] ∧
    (∀ c ∈ subtasks wStore2 "p1", (dictKeys c.derived_assignees).Nodup) ∧
    (∃ t', get_task (UpdateTaskCompletion.post (fun _ => none) wStore2 "p1").store "p1" = some t' ∧
      t'.derived_completed = (subtasks wStore2 "p1").all (fun c => c.derived_completed) ∧
      t'.derived_size = 1 + ((subtasks wStore2 "p1").map (fun c => c.derived_size)).sum ∧
      t'.derived_atomic_task_count =
        ((subtasks wStore2 "p1").map (fun c => c.derived_atomic_task_count)).sum ∧
      t'.derived_has_open_tasks =
        (subtasks wStore2 "p1").any (fun c => c.derived_has_open_tasks) ∧
      (∀ k, completedAt t'.derived_assignees k =
        ((subtasks wStore2 "p1").map (fun c => completedAt c.derived_assignees k)).sum) ∧
      (∀ k, allAt t'.derived_assignees k =
        ((subtasks wStore2 "p1").map (fun c => allAt c.derived_assignees k)).sum) ∧
      (∀ k, (dictGet t'.derived_assignees k).isSome = true ↔
        ∃ c ∈ subtasks wStore2 "p1", (dictGet c.derived_assignees k).isSome = true)) :=
  ⟨by decide, by decide, by decide,
   claim_composite_aggregate (fun _ => none) wStore2 "p1" wRoot
     (by decide) (by decide) (by decide)⟩

end SPS

namespace SPS

theorem filter_task_cons (p : Task → Bool) (a : Task) (l : List Task) :
    (a :: l).filter p = if p a then a :: l.filter p else l.filter p := by
  by_cases hp : p a <;> simp [List.filter_cons, hp]

theorem subtasks_ids_putTaskList (l : List Task) (t' : Task) (x : Task)
    (hx : l.find? (fun u => u.id == t'.id) = some x)
    (hpar : x.parent_task = t'.parent_task) (pid : String) :
    ((putTaskList l t').filter (fun u => u.parent_task == some pid)).map
        (fun u => u.id) =
      (l.filter (fun u => u.parent_task == some pid)).map (fun u => u.id) := by
  induction l with
  | nil => simp [List.find?] at hx
  | cons a as ih =>
      by_cases ha : a.id = t'.id
      · have hb : (a.id == t'.id) = true := beq_iff_eq.mpr ha
        have hxa : x = a := by
          rw [find?_task_cons, hb, if_pos rfl] at hx
          exact (Option.some_inj.mp hx).symm
        have hap : a.parent_task = t'.parent_task := by rw [← hxa]; exact hpar
        rw [putTaskList_cons, hb, if_pos rfl, filter_task_cons, filter_task_cons,
          ← hap]
        by_cases hp : a.parent_task == some pid
        · rw [if_pos hp, if_pos hp]
          simp [ha]
        · rw [if_neg hp, if_neg hp]
      · have hb : (a.id == t'.id) = false := beq_eq_false_iff_ne.mpr ha
        have hx' : as.find? (fun u => u.id == t'.id) = some x := by
          rw [find?_task_cons, hb, if_neg (by simp)] at hx
          exact hx
        rw [putTaskList_cons, hb, if_neg (by simp), filter_task_cons,
          filter_task_cons]
        by_cases hp : a.parent_task == some pid
        · rw [if_pos hp, if_pos hp, List.map_cons, List.map_cons, ih hx']
        · rw [if_neg hp, if_neg hp, ih hx']

theorem loc_post_parent (s : Store) (tid : String) (task pt : Task)
    (pid : String) (pindex : TaskIndex) (h : get_task s tid = some task)
    (hpar : task.parent_task = some pid) (hpt : get_task s pid = some pt)
    (hidx : get_index s pid = some pindex) :
    UpdateTaskHierarchy.post s tid =
      UpdateTaskHierarchy.finish s task tid (pindex.hierarchy ++ [pid])
        (pt.derived_level + 1) := by
  have hptid : pt.id = pid := get_task_eq_id hpt
  unfold UpdateTaskHierarchy.post
  rw [h]
  simp only [Task.parent_task_identifier, hpar, hpt, hptid, hidx]

theorem loc_post_root (s : Store) (tid : String) (task : Task)
    (h : get_task s tid = some task) (hpar : task.parent_task = none) :
    UpdateTaskHierarchy.post s tid = UpdateTaskHierarchy.finish s task tid [] 0 := by
  unfold UpdateTaskHierarchy.post
  rw [h]
  simp only [Task.parent_task_identifier, hpar]

theorem loc_post_dangling (s : Store) (tid : String) (task : Task)
    (pid : String) (h : get_task s tid = some task)
    (hpar : task.parent_task = some pid) (hpt : get_task s pid = none) :
    UpdateTaskHierarchy.post s tid = UpdateTaskHierarchy.finish s task tid [] 0 := by
  unfold UpdateTaskHierarchy.post
  rw [h]
  simp only [Task.parent_task_identifier, hpar, hpt]

theorem loc_finish_spec (s : Store) (tid : String) (task : Task)
    (hfind : get_task s tid = some task)
    (hierarchy : List String) (level : Int) :
    (∃ idx, get_index (UpdateTaskHierarchy.finish s task tid hierarchy level).store tid
        = some idx ∧ idx.hierarchy = hierarchy) ∧
    (∃ t', get_task (UpdateTaskHierarchy.finish s task tid hierarchy level).store tid
        = some t' ∧ t'.derived_level = level) ∧
    (UpdateTaskHierarchy.finish s task tid hierarchy level).jobs.map (fun j => j.task)
      = (subtasks s tid).map (fun c => c.id) ∧
    (∀ j ∈ (UpdateTaskHierarchy.finish s task tid hierarchy level).jobs,
      j.kind = JobKind.locateDown ∧ j.transactional = false) := by
  have hid : task.id = tid := get_task_eq_id hfind
  have hfindalt : s.tasks.find? (fun u => u.id ==
      ({ task with derived_level := level } : Task).id) = some task := by
    show s.tasks.find? (fun u => u.id == task.id) = some task
    rw [hid]
    exact hfind
  unfold UpdateTaskHierarchy.finish
  dsimp only
  refine ⟨⟨{ (get_index s tid).getD ({} : TaskIndex) with hierarchy := hierarchy },
      ?_, rfl⟩,
    ⟨{ task with derived_level := level }, ?_, rfl⟩, ?_, ?_⟩
  · rw [get_index_put_task, get_index_put_index_self]
  · have h1 : ({ task with derived_level := level } : Task).id = tid := hid
    rw [← h1]
    exact get_task_put_task_self _ _
  · rw [List.map_map]
    show ((putTaskList s.tasks { task with derived_level := level }).filter
        (fun u => u.parent_task == some tid)).map (fun u => u.id) = _
    exact subtasks_ids_putTaskList s.tasks { task with derived_level := level }
      task hfindalt rfl tid
  · intro j hj
    rw [List.mem_map] at hj
    obtain ⟨c, _, hc⟩ := hj
    rw [← hc]
    exact ⟨rfl, rfl⟩

/-- Claim C4: when the locator runs on a node whose parent reference is set
(and the parent and its index are stored), it stores the parent's hierarchy
with the parent's identifier appended and the parent's stored level plus
one; on a parentless node it stores the empty hierarchy and level 0; in
both cases it then enqueues one non-transactional locator job per direct
child, after the transaction. -/
theorem claim_locator_paths (s : Store) (tid : String) (task : Task)
    (h : get_task s tid = some task) :
    (∀ pid pt pindex, task.parent_task = some pid → get_task s pid = some pt →
      get_index s pid = some pindex →
      (∃ idx, get_index (UpdateTaskHierarchy.post s tid).store tid = some idx ∧
        idx.hierarchy = pindex.hierarchy ++ [pid]) ∧
      (∃ t', get_task (UpdateTaskHierarchy.post s tid).store tid = some t' ∧
        t'.derived_level = pt.derived_level + 1) ∧
      (UpdateTaskHierarchy.post s tid).jobs.map (fun j => j.task)
        = (subtasks s tid).map (fun c => c.id) ∧
      (∀ j ∈ (UpdateTaskHierarchy.post s tid).jobs,
        j.kind = JobKind.locateDown ∧ j.transactional = false)) ∧
    (task.parent_task = none →
      (∃ idx, get_index (UpdateTaskHierarchy.post s tid).store tid = some idx ∧
        idx.hierarchy = []) ∧
      (∃ t', get_task (UpdateTaskHierarchy.post s tid).store tid = some t' ∧
        t'.derived_level = 0) ∧
      (UpdateTaskHierarchy.post s tid).jobs.map (fun j => j.task)
        = (subtasks s tid).map (fun c => c.id) ∧
      (∀ j ∈ (UpdateTaskHierarchy.post s tid).jobs,
        j.kind = JobKind.locateDown ∧ j.transactional = false)) := by
  constructor
  · intro pid pt pindex hpar hpt hidx
    rw [loc_post_parent s tid task pt pid pindex h hpar hpt hidx]
    exact loc_finish_spec s tid task h _ _
  · intro hpar
    rw [loc_post_root s tid task h hpar]
    exact loc_finish_spec s tid task h _ _

/-- Witness for C4: the leaf under a root whose index exists (non-root
branch), and the root itself (root branch). -/
theorem claim_locator_paths_witness :
    get_task wStore5 "t1" = some wLeaf ∧ wLeaf.parent_task = some "p1" ∧
    get_task wStore5 "p1" = some wRoot ∧
    get_index wStore5 "p1" = some { hierarchy := [] } ∧
    ((∃ idx, get_index (UpdateTaskHierarchy.post wStore5 "t1").store "t1" = some idx ∧
        idx.hierarchy = ([] : List String) ++ ["p1"]) ∧
      (∃ t', get_task (UpdateTaskHierarchy.post wStore5 "t1").store "t1" = some t' ∧
        t'.derived_level = wRoot.derived_level + 1) ∧
      (UpdateTaskHierarchy.post wStore5 "t1").jobs.map (fun j => j.task)
        = (subtasks wStore5 "t1").map (fun c => c.id) ∧
      (∀ j ∈ (UpdateTaskHierarchy.post wStore5 "t1").jobs,
        j.kind = JobKind.locateDown ∧ j.transactional = false)) := by
  refine ⟨by decide, by decide, by decide, by decide, ?_⟩
  exact (claim_locator_paths wStore5 "t1" wLeaf (by decide)).1 "p1" wRoot
    { hierarchy := [] } (by decide) (by decide) (by decide)

end SPS

namespace SPS

/-! ### Idempotence of one delivery -/

theorem putTaskList_putTaskList (l : List Task) (t : Task) :
    putTaskList (putTaskList l t) t = putTaskList l t := by
  induction l with
  | nil => simp [putTaskList]
  | cons a as ih =>
      by_cases ha : a.id = t.id
      · have hb : (a.id == t.id) = true := beq_iff_eq.mpr ha
        simp [putTaskList_cons, hb]
      · have hb : (a.id == t.id) = false := beq_eq_false_iff_ne.mpr ha
        simp [putTaskList_cons, hb, ih]

theorem putIndexList_putIndexList (l : List (String × TaskIndex)) (k : String)
    (i : TaskIndex) :
    putIndexList (putIndexList l k i) k i = putIndexList l k i := by
  induction l with
  | nil => simp [putIndexList]
  | cons e es ih =>
      by_cases he : e.1 = k
      · have hb : (e.1 == k) = true := beq_iff_eq.mpr he
        simp [putIndexList_cons, hb]
      · have hb : (e.1 == k) = false := beq_eq_false_iff_ne.mpr he
        simp [putIndexList_cons, hb, ih]

theorem filter_putTaskList_of_neg (l : List Task) (t' : Task) (p : Task → Bool)
    (h1 : p t' = false)
    (h2 : ∀ x, l.find? (fun u => u.id == t'.id) = some x → p x = false) :
    (putTaskList l t').filter p = l.filter p := by
  induction l with
  | nil => simp [putTaskList, List.filter, h1]
  | cons a as ih =>
      by_cases ha : a.id = t'.id
      · have hb : (a.id == t'.id) = true := beq_iff_eq.mpr ha
        have hpa : p a = false := by
          apply h2
          rw [find?_task_cons, hb, if_pos rfl]
        rw [putTaskList_cons, hb, if_pos rfl, filter_task_cons, filter_task_cons,
          h1, hpa]
        simp
      · have hb : (a.id == t'.id) = false := beq_eq_false_iff_ne.mpr ha
        have h2' : ∀ x, as.find? (fun u => u.id == t'.id) = some x → p x = false := by
          intro x hx
          apply h2
          rw [find?_task_cons, hb, if_neg (by simp)]
          exact hx
        rw [putTaskList_cons, hb, if_neg (by simp), filter_task_cons,
          filter_task_cons, ih h2']

theorem aggCompute_idem (g : String → Option String) (task : Task)
    (index : TaskIndex) (subs : List Task) :
    UpdateTaskCompletion.aggCompute g
        (UpdateTaskCompletion.aggCompute g task index subs).1
        (UpdateTaskCompletion.aggCompute g task index subs).2 subs
      = UpdateTaskCompletion.aggCompute g task index subs := by
  cases subs with
  | cons c cs => rfl
  | nil =>
      cases task with
      | mk id par asg comp dc ds dac dl da dho =>
          cases asg with
          | none =>
              simp [UpdateTaskCompletion.aggCompute,
                UpdateTaskCompletion.leafCompute, Task.open_, Task.atomic,
                Task.is_completed, Task.assignee_identifier, Task.has_open_tasks]
          | some a =>
              simp [UpdateTaskCompletion.aggCompute,
                UpdateTaskCompletion.leafCompute, Task.open_, Task.atomic,
                Task.is_completed, Task.assignee_identifier, Task.has_open_tasks,
                dictSet_dictSet_self]

end SPS

namespace SPS

theorem agg_post_idem (g : String → Option String) (s : Store) (tid : String)
    (task : Task) (h : get_task s tid = some task)
    (hself : task.parent_task ≠ some tid) :
    UpdateTaskCompletion.post g (UpdateTaskCompletion.post g s tid).store tid
      = UpdateTaskCompletion.post g s tid := by
  have hid : task.id = tid := get_task_eq_id h
  set A := UpdateTaskCompletion.aggCompute g task
    ((get_index s tid).getD ({} : TaskIndex)) (subtasks s tid) with hA
  have hA1id : A.1.id = tid := by rw [hA, aggCompute_fst_id]; exact hid
  have hA1par : A.1.parent_task = task.parent_task := by
    rw [hA, aggCompute_fst_parent]
  have hstore1 : (UpdateTaskCompletion.post g s tid).store
      = put_index (put_task s A.1) tid A.2 := by
    rw [agg_post_store g s tid task h]
  have hget1 : get_task (put_index (put_task s A.1) tid A.2) tid = some A.1 := by
    rw [get_task_put_index, ← hA1id]
    exact get_task_put_task_self s A.1
  have hidx1 : get_index (put_index (put_task s A.1) tid A.2) tid = some A.2 :=
    get_index_put_index_self _ tid A.2
  have hsubs1 : subtasks (put_index (put_task s A.1) tid A.2) tid
      = subtasks s tid := by
    show (putTaskList s.tasks A.1).filter (fun u => u.parent_task == some tid) = _
    apply filter_putTaskList_of_neg
    · rw [beq_eq_false_iff_ne, hA1par]
      exact hself
    · intro x hx
      have hx' : get_task s tid = some x := by
        show s.tasks.find? (fun u => u.id == tid) = some x
        rw [← hA1id]
        exact hx
      have hxt : x = task := by
        have := hx'.symm.trans h
        exact Option.some_inj.mp this
      rw [beq_eq_false_iff_ne, hxt]
      exact hself
  have hAi : UpdateTaskCompletion.aggCompute g A.1 A.2 (subtasks s tid) = A := by
    rw [hA]
    exact aggCompute_idem g task ((get_index s tid).getD ({} : TaskIndex))
      (subtasks s tid)
  rw [hstore1, agg_post_some g _ tid A.1 hget1, agg_post_some g s tid task h]
  dsimp only
  rw [hidx1, hsubs1]
  simp only [Option.getD_some]
  rw [hAi, hA1par]
  congr 1
  show put_index (put_task (put_index (put_task s A.1) tid A.2) A.1) tid A.2
      = put_index (put_task s A.1) tid A.2
  simp [put_task, put_index, putTaskList_putTaskList, putIndexList_putIndexList]

end SPS

namespace SPS

theorem loc_finish_eq (S : Store) (T : Task) (tid : String)
    (hierarchy : List String) (level : Int) :
    UpdateTaskHierarchy.finish S T tid hierarchy level =
      ⟨put_task
         (put_index S tid
           { (get_index S tid).getD ({} : TaskIndex) with hierarchy := hierarchy })
         { T with derived_level := level },
       (subtasks
         (put_task
           (put_index S tid
             { (get_index S tid).getD ({} : TaskIndex) with hierarchy := hierarchy })
           { T with derived_level := level }) tid).map
         (fun c => ⟨JobKind.locateDown, c.id, false⟩),
       Outcome.success⟩ := rfl

theorem loc_finish_store (S : Store) (T : Task) (tid : String)
    (hierarchy : List String) (level : Int) :
    (UpdateTaskHierarchy.finish S T tid hierarchy level).store =
      put_task
        (put_index S tid
          { (get_index S tid).getD ({} : TaskIndex) with hierarchy := hierarchy })
        { T with derived_level := level } := rfl

theorem put_put_collapse (S : Store) (tid : String) (i : TaskIndex) (t : Task) :
    put_task (put_index (put_task (put_index S tid i) t) tid i) t
      = put_task (put_index S tid i) t := by
  show Store.mk _ _ = Store.mk _ _
  rw [Store.mk.injEq]
  exact ⟨putTaskList_putTaskList _ _, putIndexList_putIndexList _ _ _⟩

theorem loc_finish_idem (s : Store) (tid : String) (task : Task)
    (hierarchy : List String) (level : Int) :
    UpdateTaskHierarchy.finish
        (UpdateTaskHierarchy.finish s task tid hierarchy level).store
        { task with derived_level := level } tid hierarchy level
      = UpdateTaskHierarchy.finish s task tid hierarchy level := by
  rw [loc_finish_eq ((UpdateTaskHierarchy.finish s task tid hierarchy level).store)
       { task with derived_level := level } tid hierarchy level,
     loc_finish_store s task tid hierarchy level,
     get_index_put_task, get_index_put_index_self]
  simp only [Option.getD_some]
  rw [put_put_collapse, loc_finish_eq s task tid hierarchy level]

end SPS

namespace SPS

theorem loc_post_missing_index (s : Store) (tid : String) (task pt : Task)
    (pid : String) (h : get_task s tid = some task)
    (hpar : task.parent_task = some pid) (hpt : get_task s pid = some pt)
    (hidx : get_index s pid = none) :
    UpdateTaskHierarchy.post s tid = ⟨s, [], Outcome.retry⟩ := by
  have hptid : pt.id = pid := get_task_eq_id hpt
  unfold UpdateTaskHierarchy.post
  rw [h]
  simp only [Task.parent_task_identifier, hpar, hpt, hptid, hidx]

theorem loc_finish_get_task_self (s : Store) (tid : String) (task : Task)
    (hid : task.id = tid) (hierarchy : List String) (level : Int) :
    get_task (UpdateTaskHierarchy.finish s task tid hierarchy level).store tid
      = some { task with derived_level := level } := by
  rw [loc_finish_store]
  have h1 : ({ task with derived_level := level } : Task).id = tid := hid
  rw [← h1]
  exact get_task_put_task_self _ _

theorem loc_finish_get_task_other (s : Store) (tid : String) (task : Task)
    (hid : task.id = tid) (hierarchy : List String) (level : Int)
    (pid : String) (hne : pid ≠ tid) :
    get_task (UpdateTaskHierarchy.finish s task tid hierarchy level).store pid
      = get_task s pid := by
  rw [loc_finish_store]
  have h1 : ({ task with derived_level := level } : Task).id = tid := hid
  rw [get_task_put_task_ne _ _ _ (by rw [h1]; exact hne), get_task_put_index]

theorem loc_finish_get_index_other (s : Store) (tid : String) (task : Task)
    (hierarchy : List String) (level : Int) (pid : String) (hne : pid ≠ tid) :
    get_index (UpdateTaskHierarchy.finish s task tid hierarchy level).store pid
      = get_index s pid := by
  rw [loc_finish_store, get_index_put_task, get_index_put_index_ne _ _ _ _ hne]

theorem loc_post_idem (s : Store) (tid : String) (task : Task)
    (h : get_task s tid = some task) (hself : task.parent_task ≠ some tid) :
    UpdateTaskHierarchy.post (UpdateTaskHierarchy.post s tid).store tid
      = UpdateTaskHierarchy.post s tid := by
  have hid : task.id = tid := get_task_eq_id h
  cases hpar : task.parent_task with
  | none =>
      rw [loc_post_root s tid task h hpar]
      have hget1 := loc_finish_get_task_self s tid task hid [] 0
      have hpar1 : ({ task with derived_level := (0 : Int) } : Task).parent_task
          = none := hpar
      rw [loc_post_root _ tid _ hget1 hpar1, loc_finish_idem]
  | some pid =>
      have hpid_ne : pid ≠ tid := by
        intro hh
        exact hself (by rw [hpar, hh])
      cases hpt : get_task s pid with
      | none =>
          rw [loc_post_dangling s tid task pid h hpar hpt]
          have hget1 := loc_finish_get_task_self s tid task hid [] 0
          have hpar1 : ({ task with derived_level := (0 : Int) } : Task).parent_task
              = some pid := hpar
          have hpt1 : get_task (UpdateTaskHierarchy.finish s task tid [] 0).store pid
              = none := by
            rw [loc_finish_get_task_other s tid task hid [] 0 pid hpid_ne]
            exact hpt
          rw [loc_post_dangling _ tid _ pid hget1 hpar1 hpt1, loc_finish_idem]
      | some pt =>
          cases hidx : get_index s pid with
          | none =>
              have h1 := loc_post_missing_index s tid task pt pid h hpar hpt hidx
              rw [h1]
              exact h1
          | some pindex =>
              rw [loc_post_parent s tid task pt pid pindex h hpar hpt hidx]
              have hget1 := loc_finish_get_task_self s tid task hid
                (pindex.hierarchy ++ [pid]) (pt.derived_level + 1)
              have hpar1 : ({ task with derived_level := pt.derived_level + 1 } :
                  Task).parent_task = some pid := hpar
              have hpt1 : get_task
                  (UpdateTaskHierarchy.finish s task tid
                    (pindex.hierarchy ++ [pid]) (pt.derived_level + 1)).store pid
                  = some pt := by
                rw [loc_finish_get_task_other s tid task hid _ _ pid hpid_ne]
                exact hpt
              have hidx1 : get_index
                  (UpdateTaskHierarchy.finish s task tid
                    (pindex.hierarchy ++ [pid]) (pt.derived_level + 1)).store pid
                  = some pindex := by
                rw [loc_finish_get_index_other s tid task _ _ pid hpid_ne]
                exact hidx
              rw [loc_post_parent _ tid _ pt pid pindex hget1 hpar1 hpt1 hidx1,
                loc_finish_idem]

/-- Claim C5: re-delivering the same aggregator (or locator) job to a node,
with the surrounding store untouched in between, stores exactly the same
node and index state as the first delivery and enqueues the same jobs: the
second delivery leaves the store of the first delivery unchanged. -/
theorem claim_idempotent (g : String → Option String) (s : Store) (tid : String)
    (task : Task) (h : get_task s tid = some task)
    (hself : task.parent_task ≠ some tid) :
    UpdateTaskCompletion.post g (UpdateTaskCompletion.post g s tid).store tid
      = UpdateTaskCompletion.post g s tid ∧
    UpdateTaskHierarchy.post (UpdateTaskHierarchy.post s tid).store tid
      = UpdateTaskHierarchy.post s tid :=
  ⟨agg_post_idem g s tid task h hself, loc_post_idem s tid task h hself⟩

/-- Witness for C5 on the fresh leaf with its parent's index present. -/
theorem claim_idempotent_witness :
    get_task wStore5 "t1" = some wLeaf ∧ wLeaf.parent_task ≠ some "t1" ∧
    (UpdateTaskCompletion.post (fun _ => none)
        (UpdateTaskCompletion.post (fun _ => none) wStore5 "t1").store "t1"
      = UpdateTaskCompletion.post (fun _ => none) wStore5 "t1" ∧
    UpdateTaskHierarchy.post (UpdateTaskHierarchy.post wStore5 "t1").store "t1"
      = UpdateTaskHierarchy.post wStore5 "t1") :=
  ⟨by decide, by decide,
   claim_idempotent (fun _ => none) wStore5 "t1" wLeaf (by decide) (by decide)⟩

end SPS

namespace SPS

/-! ### The bottom-up chain: skeleton preservation and termination -/

theorem find?_map_putTaskList {α : Type} (l : List Task) (t' : Task)
    (f : Task → α) (x : Task)
    (hx : l.find? (fun u => u.id == t'.id) = some x) (hfx : f x = f t')
    (key : String) :
    ((putTaskList l t').find? (fun u => u.id == key)).map f
      = (l.find? (fun u => u.id == key)).map f := by
  induction l with
  | nil => simp [List.find?] at hx
  | cons a as ih =>
      by_cases ha : a.id = t'.id
      · have hb : (a.id == t'.id) = true := beq_iff_eq.mpr ha
        have hxa : x = a := by
          rw [find?_task_cons, hb, if_pos rfl] at hx
          exact (Option.some_inj.mp hx).symm
        have hfa : f a = f t' := by rw [← hxa]; exact hfx
        rw [putTaskList_cons, hb, if_pos rfl, find?_task_cons, find?_task_cons]
        have hpred : (t'.id == key) = (a.id == key) := by rw [ha]
        rw [hpred]
        by_cases hk : a.id = key
        · have hbk : (a.id == key) = true := beq_iff_eq.mpr hk
          rw [hbk]
          simp [hfa]
        · have hbk : (a.id == key) = false := beq_eq_false_iff_ne.mpr hk
          rw [hbk]
          simp
      · have hb : (a.id == t'.id) = false := beq_eq_false_iff_ne.mpr ha
        have hx' : as.find? (fun u => u.id == t'.id) = some x := by
          rw [find?_task_cons, hb, if_neg (by simp)] at hx
          exact hx
        rw [putTaskList_cons, hb, if_neg (by simp), find?_task_cons, find?_task_cons]
        by_cases hk : a.id = key
        · have hbk : (a.id == key) = true := beq_iff_eq.mpr hk
          rw [hbk]
          simp
        · have hbk : (a.id == key) = false := beq_eq_false_iff_ne.mpr hk
          rw [hbk]
          simp only [if_neg Bool.false_ne_true]
          exact ih hx'

theorem agg_post_skel (g : String → Option String) (s : Store) (tid : String)
    (key : String) :
    taskSkel (UpdateTaskCompletion.post g s tid).store key = taskSkel s key := by
  cases h : get_task s tid with
  | none => rw [agg_post_absent g s tid h]
  | some task =>
      rw [agg_post_store g s tid task h]
      set A := UpdateTaskCompletion.aggCompute g task
        ((get_index s tid).getD ({} : TaskIndex)) (subtasks s tid) with hA
      show ((putTaskList s.tasks A.1).find? (fun u => u.id == key)).map _
          = (s.tasks.find? (fun u => u.id == key)).map _
      apply find?_map_putTaskList s.tasks A.1 _ task
      · show s.tasks.find? (fun u => u.id == A.1.id) = some task
        have : A.1.id = tid := by rw [hA, aggCompute_fst_id]; exact get_task_eq_id h
        rw [this]
        exact h
      · show (task.parent_task, task.derived_level)
            = (A.1.parent_task, A.1.derived_level)
        rw [hA, aggCompute_fst_parent, aggCompute_fst_level]

theorem get_task_of_skel_eq (s s' : Store) (key : String) (u : Task)
    (hsk : taskSkel s' key = taskSkel s key) (hu : get_task s' key = some u) :
    ∃ v, get_task s key = some v ∧ v.parent_task = u.parent_task ∧
      v.derived_level = u.derived_level := by
  cases hg : get_task s key with
  | none =>
      unfold taskSkel at hsk
      rw [hu, hg, Option.map_some', Option.map_none'] at hsk
      exact Option.noConfusion hsk
  | some v =>
      unfold taskSkel at hsk
      rw [hu, hg, Option.map_some', Option.map_some'] at hsk
      have h2 := Option.some_inj.mp hsk
      have hp := congrArg Prod.fst h2
      have hl := congrArg Prod.snd h2
      exact ⟨v, rfl, hp.symm, hl.symm⟩

theorem depthOKb_eq_none (s : Store) (t : Task) (hp : t.parent_task = none) :
    depthOKb s t = (decide (0 ≤ t.derived_level) && (t.derived_level == 0)) := by
  unfold depthOKb
  rw [hp]

theorem depthOKb_eq_some (s : Store) (t : Task) (p : String)
    (hp : t.parent_task = some p) :
    depthOKb s t = (decide (0 ≤ t.derived_level) &&
      (match get_task s p with
       | none => false
       | some pt => t.derived_level == pt.derived_level + 1)) := by
  unfold depthOKb
  rw [hp]

theorem depthOKb_level_nonneg (s : Store) (t : Task) (h : depthOKb s t = true) :
    0 ≤ t.derived_level := by
  unfold depthOKb at h
  rw [Bool.and_eq_true] at h
  exact of_decide_eq_true h.1

theorem depthOKb_root (s : Store) (t : Task) (h : depthOKb s t = true)
    (hp : t.parent_task = none) : t.derived_level = 0 := by
  rw [depthOKb_eq_none s t hp, Bool.and_eq_true] at h
  exact beq_iff_eq.mp h.2

theorem depthOKb_parent (s : Store) (t : Task) (p : String)
    (h : depthOKb s t = true) (hp : t.parent_task = some p) :
    ∃ pt, get_task s p = some pt ∧ t.derived_level = pt.derived_level + 1 := by
  rw [depthOKb_eq_some s t p hp, Bool.and_eq_true] at h
  have h2 := h.2
  cases hg : get_task s p with
  | none => rw [hg] at h2; simp at h2
  | some pt =>
      rw [hg] at h2
      exact ⟨pt, rfl, beq_iff_eq.mp h2⟩

theorem depthOKb_of_skel (s s' : Store)
    (hsk : ∀ key, taskSkel s' key = taskSkel s key) (t t' : Task)
    (hp : t'.parent_task = t.parent_task)
    (hl : t'.derived_level = t.derived_level)
    (h : depthOKb s t = true) : depthOKb s' t' = true := by
  cases hpt : t.parent_task with
  | none =>
      rw [depthOKb_eq_none s' t' (by rw [hp]; exact hpt), hl]
      rw [depthOKb_eq_none s t hpt] at h
      exact h
  | some p =>
      obtain ⟨pt, hg, hlev⟩ := depthOKb_parent s t p h hpt
      rw [depthOKb_eq_some s' t' p (by rw [hp]; exact hpt)]
      have hsp := hsk p
      unfold taskSkel at hsp
      rw [hg] at hsp
      cases hg' : get_task s' p with
      | none =>
          rw [hg', Option.map_none', Option.map_some'] at hsp
          exact Option.noConfusion hsp
      | some pt' =>
          rw [hg', Option.map_some', Option.map_some'] at hsp
          have h2 := Option.some_inj.mp hsp
          have hl2 := congrArg Prod.snd h2
          rw [Bool.and_eq_true]
          constructor
          · rw [hl]
            exact decide_eq_true (depthOKb_level_nonneg s t h)
          · show (t'.derived_level == pt'.derived_level + 1) = true
            rw [hl]
            have : pt'.derived_level = pt.derived_level := hl2
            rw [this]
            exact beq_iff_eq.mpr hlev

theorem mem_putTaskList (l : List Task) (t' : Task) (u : Task)
    (hu : u ∈ putTaskList l t') : u = t' ∨ u ∈ l := by
  induction l with
  | nil => simp [putTaskList] at hu; exact Or.inl hu
  | cons a as ih =>
      rw [putTaskList_cons] at hu
      by_cases ha : a.id = t'.id
      · have hb : (a.id == t'.id) = true := beq_iff_eq.mpr ha
        rw [hb, if_pos rfl] at hu
        rcases List.mem_cons.mp hu with hu | hu
        · exact Or.inl hu
        · exact Or.inr (List.mem_cons_of_mem a hu)
      · have hb : (a.id == t'.id) = false := beq_eq_false_iff_ne.mpr ha
        rw [hb, if_neg (by simp)] at hu
        rcases List.mem_cons.mp hu with hu | hu
        · exact Or.inr (by rw [hu]; exact List.mem_cons_self a as)
        · rcases ih hu with hh | hh
          · exact Or.inl hh
          · exact Or.inr (List.mem_cons_of_mem a hh)

theorem agg_post_wf (g : String → Option String) (s : Store) (tid : String)
    (hw : WellFormedDepths s) :
    WellFormedDepths (UpdateTaskCompletion.post g s tid).store := by
  intro u hu
  cases h : get_task s tid with
  | none =>
      rw [agg_post_absent g s tid h] at hu ⊢
      exact hw u hu
  | some task =>
      have hsk : ∀ key, taskSkel (UpdateTaskCompletion.post g s tid).store key
          = taskSkel s key := agg_post_skel g s tid
      rw [agg_post_store g s tid task h] at hu
      have hu' : u ∈ putTaskList s.tasks
          (UpdateTaskCompletion.aggCompute g task
            ((get_index s tid).getD ({} : TaskIndex)) (subtasks s tid)).1 := hu
      rcases mem_putTaskList _ _ _ hu' with hA | hmem
      · -- the rewritten node keeps the skeleton of the loaded node
        apply depthOKb_of_skel s _ hsk task u
        · rw [hA, aggCompute_fst_parent]
        · rw [hA, aggCompute_fst_level]
        · exact hw task (get_task_mem h)
      · exact depthOKb_of_skel s _ hsk u u rfl rfl (hw u hmem)

end SPS

namespace SPS

theorem aggChainRun_succ (g : String → Option String) (n : Nat) (s : Store)
    (tid : String) :
    aggChainRun g (n + 1) s tid =
      (match (UpdateTaskCompletion.post g s tid).jobs with
       | [] => ([tid], (UpdateTaskCompletion.post g s tid).store, [])
       | j :: _ =>
           (tid :: (aggChainRun g n
              (UpdateTaskCompletion.post g s tid).store j.task).1,
            (aggChainRun g n
              (UpdateTaskCompletion.post g s tid).store j.task).2.1,
            (aggChainRun g n
              (UpdateTaskCompletion.post g s tid).store j.task).2.2)) := rfl

theorem aggChainRun_spec (g : String → Option String) :
    ∀ (d : Nat) (s : Store) (tid : String) (task : Task),
      WellFormedDepths s → get_task s tid = some task →
      task.derived_level = (d : Int) →
      ∃ visits s', aggChainRun g (d + 1) s tid = (visits, s', []) ∧
        visits.length = d + 1 ∧ visits.Nodup ∧
        (∀ v ∈ visits, ∃ u, get_task s v = some u ∧ u.derived_level ≤ (d : Int)) ∧
        (∃ rt u, visits.getLast? = some rt ∧ get_task s rt = some u ∧
          u.parent_task = none) := by
  intro d
  induction d with
  | zero =>
      intro s tid task hw h hl
      have hdok : depthOKb s task = true := hw task (get_task_mem h)
      cases hpar : task.parent_task with
      | some p =>
          exfalso
          obtain ⟨pt, hg, hlev⟩ := depthOKb_parent s task p hdok hpar
          have hnn : 0 ≤ pt.derived_level :=
            depthOKb_level_nonneg s pt (hw pt (get_task_mem hg))
          rw [hl] at hlev
          push_cast at hlev
          omega
      | none =>
          have hjobs : (UpdateTaskCompletion.post g s tid).jobs = [] := by
            rw [agg_post_jobs g s tid task h, hpar]
          refine ⟨[tid], (UpdateTaskCompletion.post g s tid).store, ?_, rfl, ?_,
            ?_, ?_⟩
          · show aggChainRun g 1 s tid = _
            rw [aggChainRun_succ, hjobs]
          · simp
          · intro v hv
            rw [List.mem_singleton] at hv
            subst hv
            exact ⟨task, h, le_of_eq hl⟩
          · exact ⟨tid, task, by simp, h, hpar⟩
  | succ n ih =>
      intro s tid task hw h hl
      have hdok : depthOKb s task = true := hw task (get_task_mem h)
      cases hpar : task.parent_task with
      | none =>
          exfalso
          have h0 := depthOKb_root s task hdok hpar
          rw [hl] at h0
          push_cast at h0
          omega
      | some p =>
          obtain ⟨pt, hg, hlev⟩ := depthOKb_parent s task p hdok hpar
          have hptlev : pt.derived_level = (n : Int) := by
            rw [hl] at hlev
            push_cast at hlev
            omega
          have hjobs : (UpdateTaskCompletion.post g s tid).jobs
              = [⟨JobKind.aggregateUp, p, true⟩] := by
            rw [agg_post_jobs g s tid task h, hpar]
          set s1 := (UpdateTaskCompletion.post g s tid).store with hs1
          have hsk : ∀ key, taskSkel s1 key = taskSkel s key :=
            agg_post_skel g s tid
          have hw1 : WellFormedDepths s1 := agg_post_wf g s tid hw
          obtain ⟨pt1, hg1, hp1, hl1⟩ :=
            get_task_of_skel_eq s1 s p pt (hsk p).symm hg
          obtain ⟨visits', s'', hrun, hlen, hnodup, hmemv, hlast⟩ :=
            ih s1 p pt1 hw1 hg1 (by rw [hl1, hptlev])
          refine ⟨tid :: visits', s'', ?_, ?_, ?_, ?_, ?_⟩
          · show aggChainRun g (n + 1 + 1) s tid = _
            rw [aggChainRun_succ, hjobs]
            dsimp only
            rw [← hs1, hrun]
          · simp [hlen]
          · rw [List.nodup_cons]
            refine ⟨?_, hnodup⟩
            intro hvt
            obtain ⟨u, hu, hule⟩ := hmemv tid hvt
            obtain ⟨v, hv, hvp, hvl⟩ := get_task_of_skel_eq s s1 tid u (hsk tid) hu
            have hvt2 : v = task := Option.some_inj.mp (hv.symm.trans h)
            rw [hvt2] at hvl
            rw [hl] at hvl
            rw [← hvl] at hule
            push_cast at hule
            omega
          · intro v hv
            rcases List.mem_cons.mp hv with hv | hv
            · subst hv
              exact ⟨task, h, le_of_eq hl⟩
            · obtain ⟨u, hu, hule⟩ := hmemv v hv
              obtain ⟨w, hw', hwp, hwl⟩ :=
                get_task_of_skel_eq s s1 v u (hsk v) hu
              refine ⟨w, hw', ?_⟩
              rw [hwl]
              push_cast
              omega
          · obtain ⟨rt, u, hrt, hru, hup⟩ := hlast
            have hne : visits' ≠ [] := by
              intro hnil
              rw [hnil] at hlen
              simp at hlen
            have hgl : (tid :: visits').getLast? = visits'.getLast? := by
              cases visits' with
              | nil => exact absurd rfl hne
              | cons a as => rw [List.getLast?_cons_cons]
            obtain ⟨w, hw', hwp, hwl⟩ := get_task_of_skel_eq s s1 rt u (hsk rt) hru
            refine ⟨rt, w, ?_, hw', ?_⟩
            · rw [hgl]
              exact hrt
            · rw [hwp]
              exact hup

end SPS

namespace SPS

/-- Claim C8: a bottom-up delivery enqueues exactly one transactional
follow-up job for the parent when the node has one, and no job otherwise;
consequently, on a store whose stored depths are consistent (in particular
cycle-free), the chain of bottom-up jobs started at a node of stored depth
d processes exactly d + 1 distinct nodes, the last of which is a root, and
leaves no job pending. -/
theorem claim_chain_termination (g : String → Option String) :
    (∀ (s : Store) (tid : String) (task : Task), get_task s tid = some task →
      (UpdateTaskCompletion.post g s tid).jobs =
        (match task.parent_task with
         | some p => [⟨JobKind.aggregateUp, p, true⟩]
         | none => [])) ∧
    (∀ (d : Nat) (s : Store) (tid : String) (task : Task),
      WellFormedDepths s → get_task s tid = some task →
      task.derived_level = (d : Int) →
      ∃ visits s', aggChainRun g (d + 1) s tid = (visits, s', []) ∧
        visits.length = d + 1 ∧ visits.Nodup ∧
        (∃ rt u, visits.getLast? = some rt ∧ get_task s rt = some u ∧
          u.parent_task = none)) := by
  constructor
  · intro s tid task h
    exact agg_post_jobs g s tid task h
  · intro d s tid task hw h hl
    obtain ⟨visits, s', hrun, hlen, hnodup, _, hlast⟩ :=
      aggChainRun_spec g d s tid task hw h hl
    exact ⟨visits, s', hrun, hlen, hnodup, hlast⟩

/-- Witness for C8 on a two-node chain: `c1` at stored depth 1 under root
`r1`; the chain processes both nodes and stops. -/
theorem claim_chain_termination_witness :
    ((UpdateTaskCompletion.post (fun _ => none) wStore8 "c1").jobs =
      [⟨JobKind.aggregateUp, "r1", true⟩]) ∧
    WellFormedDepths wStore8 ∧
    get_task wStore8 "c1" = some { id := "c1", parent_task := some "r1", assignee := none, completed := false, derived_level := 1 } ∧
    (∃ visits s', aggChainRun (fun _ => none) (1 + 1) wStore8 "c1" = (visits, s', []) ∧
      visits.length = 1 + 1 ∧ visits.Nodup ∧
      (∃ rt u, visits.getLast? = some rt ∧ get_task wStore8 rt = some u ∧
        u.parent_task = none)) := by
  refine ⟨?_, by decide, by decide, ?_⟩
  · rw [(claim_chain_termination (fun _ => none)).1 wStore8 "c1"
      { id := "c1", parent_task := some "r1", assignee := none,
        completed := false, derived_level := 1 } (by decide)]
  · exact (claim_chain_termination (fun _ => none)).2 1 wStore8 "c1"
      { id := "c1", parent_task := some "r1", assignee := none,
        completed := false, derived_level := 1 }
      (by decide) (by decide) (by decide)

end SPS
